import Mathlib

/-!
Shallow embedding of the category-tree OCR reconstruction pipeline
(src/src/lib.rs) and verification of its specification claims.

Strings are modelled as `List Char` (Rust `&str` at char granularity; the
one place the Rust code slices at byte indices, `normalize_first_category`,
is modelled with its byte-level behaviour made explicit at char level,
which is exact because the characters at the computed boundaries, ASCII
digits and `)`, are single-byte).

Rust `char::is_whitespace` and the regex class `\s` are both the Unicode
White_Space property; `isWs` below lists that set.  The regex class `\d`
(Unicode Nd) is modelled by its ASCII subclass, matching Rust
`char::is_ascii_digit` used elsewhere in the source; all inputs considered
here use ASCII digits only.
-/

namespace Kimi

/-- Unicode White_Space, as used by Rust `char::is_whitespace` and the
regex class `\s`. -/
def isWs (c : Char) : Bool :=
  c.toNat == 0x20 || (0x09 <= c.toNat && c.toNat <= 0x0D) ||
  c.toNat == 0x85 || c.toNat == 0xA0 || c.toNat == 0x1680 ||
  (0x2000 <= c.toNat && c.toNat <= 0x200A) ||
  c.toNat == 0x2028 || c.toNat == 0x2029 || c.toNat == 0x202F ||
  c.toNat == 0x205F || c.toNat == 0x3000

/-- ASCII digit, Rust `char::is_ascii_digit` / regex `\d` restricted to ASCII. -/
def isDigitChar (c : Char) : Bool := 0x30 <= c.toNat && c.toNat <= 0x39

/-- Rust `str::trim`: remove leading and trailing whitespace. -/
def trimWs (l : List Char) : List Char :=
  ((l.dropWhile isWs).reverse.dropWhile isWs).reverse

/-- `x` starts with `s` (char-list version of Rust `str::starts_with`). -/
def startsWithSeg : List Char → List Char → Bool
  | _, [] => true
  | [], _ :: _ => false
  | c :: r, d :: s => c == d && startsWithSeg r s

/-- `l` ends with `s` (Rust `str::ends_with`). -/
def endsWithS (l s : List Char) : Bool :=
  startsWithSeg l.reverse s.reverse

/-- `l` contains `s` as a contiguous substring (Rust `str::contains`). -/
def containsSub : List Char → List Char → Bool
  | [], needle => needle.isEmpty
  | c :: r, needle => startsWithSeg (c :: r) needle || containsSub r needle

/-- Split on a separator character, keeping empty parts (Rust
`str::split(sep)`): always returns at least one part; splitting the empty
string yields `[[]]`. -/
def splitOnChar (sep : Char) : List Char → List (List Char)
  | [] => [[]]
  | c :: r =>
    if c = sep then [] :: splitOnChar sep r
    else
      match splitOnChar sep r with
      | p :: ps => (c :: p) :: ps
      | [] => [[c]]

/-- Join with a separator string (Rust `[String]::join`), used to feed a
line sequence back as one text block. -/
def joinSepL (sep : List Char) : List (List Char) → List Char
  | [] => []
  | [l] => l
  | l :: l' :: ls => l ++ sep ++ joinSepL sep (l' :: ls)

/-- `id.split('-')` as performed by `CategoryTree::insert`. -/
def splitDash (id : List Char) : List (List Char) :=
  splitOnChar '-' id

/-- A parsed category record (struct `Category`): id such as `1-01`,
optional code such as `GBM10100`, optional description. -/
structure Category where
  id : List Char
  code : Option (List Char)
  desc : Option (List Char)
deriving DecidableEq, Repr

/-- The ordered tree (struct `CategoryTree`): children are an ordered
association list from path segment to subtree (the `IndexMap`, whose
iteration order is first-insertion order), plus the categories attached at
this node. -/
inductive CategoryTree where
  | node : List (List Char × CategoryTree) → List Category → CategoryTree

/-- `CategoryTree::new()`. -/
def emptyTree : CategoryTree := .node [] []

/-- Children list of a node's immediate segments, in sibling order. -/
def rootKeys : CategoryTree → List (List Char)
  | .node ch _ => ch.map Prod.fst

/-- Lookup a child by segment (first match, `IndexMap` keys are unique). -/
def lookupChild : List (List Char × CategoryTree) → List Char → Option CategoryTree
  | [], _ => none
  | (k, t) :: ch, s => if k = s then some t else lookupChild ch s

/-- Replace the child keyed `s` in place, or append it at the end when
absent: the update discipline of `IndexMap::entry(..).or_insert_with(..)`,
which preserves sibling creation order. -/
def setChild : List (List Char × CategoryTree) → List Char → CategoryTree → List (List Char × CategoryTree)
  | [], s, t => [(s, t)]
  | (k, u) :: ch, s, t => if k = s then (k, t) :: ch else (k, u) :: setChild ch s t

/-- Walk the segment path from this node, creating missing children, and
append the category at the final node: the loop body of
`CategoryTree::insert`. -/
def insertPath (c : Category) : List (List Char) → CategoryTree → CategoryTree
  | [], .node ch cats => .node ch (cats ++ [c])
  | s :: rest, .node ch cats =>
    let child := (lookupChild ch s).getD emptyTree
    .node (setChild ch s (insertPath c rest child)) cats

/-- `CategoryTree::insert(id, category)`: split the id on `-` and walk. -/
def insertId (t : CategoryTree) (id : List Char) (c : Category) : CategoryTree :=
  insertPath c (splitDash id) t

/-- A sequence of insert calls, oldest first. -/
def insertAll (t : CategoryTree) (l : List (List Char × Category)) : CategoryTree :=
  l.foldl (fun t x => insertId t x.1 x.2) t

/-- Categories attached at the node reached by `p` ( `[]` when the node
does not exist). -/
def catsAt : CategoryTree → List (List Char) → List Category
  | .node _ cats, [] => cats
  | .node ch _, s :: rest =>
    match lookupChild ch s with
    | some t => catsAt t rest
    | none => []

/-- Whether the node reached by `p` exists. -/
def hasNode : CategoryTree → List (List Char) → Bool
  | _, [] => true
  | .node ch _, s :: rest =>
    match lookupChild ch s with
    | some t => hasNode t rest
    | none => false

/-- `p` is an initial run of `segs` (every inserted id creates exactly the
nodes on its segment path). -/
def pathLeadsB : List (List Char) → List (List Char) → Bool
  | [], _ => true
  | _ :: _, [] => false
  | q :: pr, s :: sr => q == s && pathLeadsB pr sr

/-!
## CategoryParser (`parse_categories`)

The regex is
`^\s* (?P<id>(?:\d+-?)+) (?:\s*\(\s*(?P<code>GBM\s*\d+)\s*\))? \s*(?P<desc>.*)?$`
(extended mode).  For this pattern greedy left-to-right matching without
backtracking is exact: whenever an earlier greedy choice is given back, the
characters returned to the tail are non-whitespace, so a tail that failed
(a non-whitespace character before a later newline in what `\s*(.*)$` must
cover) keeps failing.  The functions below therefore consume maximally at
each step, mirroring the capture groups.
-/

/-- Dropping a while-run never lengthens a list (termination helper). -/
theorem lengthDropWhileLe {α : Type} (p : α → Bool) (l : List α) :
    (l.dropWhile p).length ≤ l.length := by
  induction l with
  | nil => simp
  | cons a l ih =>
    by_cases h : p a
    · simp only [List.dropWhile_cons, h, if_true]
      exact Nat.le_succ_of_le ih
    · simp [List.dropWhile_cons, h]

/-- Greedy match of `(?:\d+-?)+` at the head of `xs` (the caller has
checked that `xs` starts with a digit): returns the matched id characters
and the remaining input.  Each repetition is a digit run followed by an
optional dash; another repetition starts exactly when a digit follows, so
a dash is consumed greedily even when nothing follows it. -/
def parseIdLoop : List Char → List Char × List Char
  | [] => ([], [])
  | c :: cs =>
    if isDigitChar c then
      let p := parseIdLoop cs
      (c :: p.1, p.2)
    else if c = '-' then
      if cs.head?.elim false isDigitChar then
        let p := parseIdLoop cs
        ('-' :: p.1, p.2)
      else (['-'], cs)
    else ([], c :: cs)

/-- Greedy attempt of the optional group `(?:\s*\(\s*(GBM\s*\d+)\s*\))?`:
on success returns the `code` capture (which spans `GBM`, the whitespace
after it, and the digit run) and the input after the closing paren; on
failure returns `none` with the input untouched. -/
def tryCode (xs : List Char) : Option (List Char) × List Char :=
  match (xs.dropWhile isWs) with
  | '(' :: r1 =>
    match r1.dropWhile isWs with
    | 'G' :: 'B' :: 'M' :: r3 =>
      let w := r3.takeWhile isWs
      let r4 := r3.dropWhile isWs
      let ds := r4.takeWhile isDigitChar
      let r5 := r4.dropWhile isDigitChar
      if ds = [] then (none, xs)
      else
        match r5.dropWhile isWs with
        | ')' :: r7 => (some ('G' :: 'B' :: 'M' :: (w ++ ds)), r7)
        | _ => (none, xs)
    | _ => (none, xs)
  | _ => (none, xs)

/-- Match one chunk against the category regex and build the record as the
loop body of `parse_categories` does: id capture trimmed, ASCII spaces
(only) removed from code and description by `replace(' ', "")`.  The match
fails (`none`) when no digit follows the leading whitespace or when the
final `\s*(?P<desc>.*)$` cannot cover the remainder, i.e. when a newline
remains after the maximal whitespace run (`.` does not match `\n` and `$`
is end of haystack in the Rust regex crate). -/
def parseCategoryChunk (chunk : List Char) : Option Category :=
  let rest0 := chunk.dropWhile isWs
  if rest0.head?.elim false isDigitChar then
    let idr := parseIdLoop rest0
    let cr := tryCode idr.2
    let d := cr.2.dropWhile isWs
    if d.contains '\n' then none
    else some ⟨trimWs idr.1, cr.1.map (List.filter (· != ' ')), some (d.filter (· != ' '))⟩
  else none

/-- `parse_categories`: match each chunk, dropping non-matches silently and
preserving order.  (The Rust function returns `Result` only because it
compiles the regex; with the fixed pattern that never fails, so the `Ok`
payload is modelled directly.) -/
def parseCategories (chunks : List (List Char)) : List Category :=
  chunks.filterMap parseCategoryChunk

/-- Tail of the strict id grammar after a digit has been read: digits, or
a dash that must be followed by a digit. -/
def strictIdTail : List Char → Bool
  | [] => true
  | c :: cs =>
    if c = '-' then cs.head?.elim false isDigitChar && strictIdTail cs
    else isDigitChar c && strictIdTail cs

/-- Spec-side id grammar of claim C7: one or more digit groups joined by
single dashes, with no leading or trailing dash and no other characters. -/
def isStrictIdShape : List Char → Bool
  | [] => false
  | c :: cs => isDigitChar c && strictIdTail cs

/-- Tail of the id shape the code actually guarantees: as `strictIdTail`,
but a final trailing dash is allowed. -/
def idTail : List Char → Bool
  | [] => true
  | c :: cs =>
    if c = '-' then cs.head?.elim true isDigitChar && idTail cs
    else isDigitChar c && idTail cs

/-- The id shape the code actually guarantees: digit groups joined by
single dashes, possibly ending in one trailing dash. -/
def isIdShape : List Char → Bool
  | [] => false
  | c :: cs => isDigitChar c && idTail cs

/-!
## LineReconstructor (`construct_lines`)
-/

/-- Rust `str::lines`: split on `\n`, drop a final empty piece (trailing
newline), and strip one trailing `\r` from every piece that was followed
by a `\n`. -/
def stripCR (l : List Char) : List Char :=
  if l.getLast? = some '\r' then l.dropLast else l

/-- See `stripCR`; the last piece keeps its `\r` when the text does not end
with a newline, exactly as in Rust. -/
def linesOf (t : List Char) : List (List Char) :=
  let parts := splitOnChar '\n' t
  if parts.getLast? = some [] then parts.dropLast.map stripCR
  else parts.dropLast.map stripCR ++ parts.getLast?.toList

/-- Per-line preprocessing done while collecting the `lines` vector:
remove every whitespace character. -/
def stripWs (l : List Char) : List Char :=
  l.filter (fun c => !isWs c)

/-- Noise removal done inside the loop: `replace("L","")`, `replace("S","")`,
`replace("/","")` delete every occurrence of the three OCR artifacts.  (The
subsequent `trim()` is the identity here because all whitespace was already
removed when the line list was built.) -/
def removeNoise (l : List Char) : List Char :=
  l.filter (fun c => !(c == 'L' || c == 'S' || c == '/'))

/-- The terminal condition of the loop, in the source's order: empty line;
the closed catalogue of role suffixes; the `工` suffix guarded by a
one-line lookahead into the raw (whitespace-stripped, not noise-stripped)
line list; or exactly three `-` occurrences. -/
def isTerminal (line : List Char) (nextRaw : Option (List Char)) : Bool :=
  line.isEmpty ||
  endsWithS line ("责人").data ||
  endsWithS line ("员").data ||
  endsWithS line ("护士").data ||
  endsWithS line ("制片人").data ||
  endsWithS line ("师").data ||
  endsWithS line ("官").data ||
  endsWithS line ("律师").data ||
  endsWithS line ("医生").data ||
  endsWithS line ("顾问").data ||
  endsWithS line ("教师").data ||
  endsWithS line ("警察").data ||
  endsWithS line ("经理").data ||
  endsWithS line ("董事").data ||
  (endsWithS line ("工").data &&
    nextRaw.elim false (fun nl => !containsSub nl ("技术人员").data)) ||
  line.count '-' == 3

/-- The accumulation loop of `construct_lines` over the whitespace-stripped
line list: on a terminal line the buffer (with the line appended) is
emitted if non-empty and cleared; otherwise the line joins the buffer; a
non-empty buffer is flushed after the last line. -/
def clCore : List Char → List (List Char) → List (List Char)
  | buffer, [] => if buffer.isEmpty then [] else [buffer]
  | buffer, l :: rest =>
    let line := removeNoise l
    if isTerminal line rest.head? then
      let b := buffer ++ line
      if b.isEmpty then clCore [] rest else b :: clCore [] rest
    else
      clCore (buffer ++ line) rest

/-- `construct_lines` on a text block. -/
def constructLines (t : List Char) : List (List Char) :=
  clCore [] ((linesOf t).map stripWs)

/-!
## ColumnCombiner (`parse_two_columns`)
-/

/-- The pairing loop: zip the two reconstructed sequences (stopping at the
shorter), concatenate each pair with a single space, trim, and keep only
non-empty results. -/
def combinedPairs (a b : List (List Char)) : List (List Char) :=
  (a.zip b).foldl
    (fun acc p =>
      let comb := trimWs (p.1 ++ ' ' :: p.2)
      if comb.isEmpty then acc else acc ++ [comb])
    []

/-- `parse_two_columns`: reconstruct both cells, pair, re-join with the
`"\n\n\n"` separator, reconstruct again, parse, and insert every parsed
category under its own id. -/
def parseTwoColumns (t : CategoryTree) (cellFirst cellSecond : List Char) : CategoryTree :=
  let linesFirst := constructLines cellFirst
  let linesSecond := constructLines cellSecond
  let finalText := joinSepL ['\n', '\n', '\n'] (combinedPairs linesFirst linesSecond)
  let chunks := constructLines finalText
  (parseCategories chunks).foldl (fun t c => insertId t c.id c) t

/-- `parse_one_column`: reconstruct, parse, insert. -/
def parseOneColumn (t : CategoryTree) (cell : List Char) : CategoryTree :=
  (parseCategories (constructLines cell)).foldl (fun t c => insertId t c.id c) t

/-!
## FirstCategoryNormalizer (`normalize_first_category`)
-/

/-- Index of the first character satisfying `p` (Rust
`char_indices().find(..)` / `str::find`, at char granularity). -/
def findCharIdx (p : Char → Bool) : List Char → Option Nat
  | [] => none
  | c :: r => if p c then some 0 else (findCharIdx p r).map (· + 1)

/-- `normalize_first_category`.  The Rust code slices with byte indices;
the only step where that shows is `text.get(first_digit..=first_paren)`,
which is `None` when the first digit starts more than one byte past the
`)` — at char granularity, since `)` is one byte: when the first digit is
neither before the `)` nor the character immediately after it.  That makes
the function return `None` on such inputs even though a digit, a non-empty
name and a `)` all exist. -/
def normalizeFirstCategory (text : List Char) : Option (List Char) :=
  match findCharIdx isDigitChar text with
  | none => none
  | some k =>
    let name := trimWs (text.take k)
    if name.isEmpty then none
    else
      match findCharIdx (· == ')') text with
      | none => none
      | some p =>
        let desc := trimWs (text.drop (p + 1))
        if k > p + 1 then none
        else
          let number := (text.drop k).take (p + 1 - k)
          some (number ++ ' ' :: (name ++ desc))

/-!
## Basic facts about characters and list scanning
-/

theorem not_ws_of_digit {c : Char} (h : isDigitChar c = true) : isWs c = false := by
  unfold isDigitChar at h
  rw [Bool.and_eq_true, decide_eq_true_eq, decide_eq_true_eq] at h
  simp only [isWs, Bool.or_eq_false_iff, Bool.and_eq_false_iff, beq_eq_false_iff_ne, ne_eq,
    decide_eq_false_iff_not, not_le]
  omega

theorem takeWhile_append_all {α : Type} (p : α → Bool) (l₁ l₂ : List α)
    (h : ∀ a ∈ l₁, p a = true) : (l₁ ++ l₂).takeWhile p = l₁ ++ l₂.takeWhile p := by
  induction l₁ with
  | nil => simp
  | cons a l ih =>
    have ha : p a = true := h a (List.mem_cons_self a l)
    simp only [List.cons_append, List.takeWhile_cons, ha, if_true]
    rw [ih (fun x hx => h x (List.mem_cons_of_mem a hx))]

theorem dropWhile_append_all {α : Type} (p : α → Bool) (l₁ l₂ : List α)
    (h : ∀ a ∈ l₁, p a = true) : (l₁ ++ l₂).dropWhile p = l₂.dropWhile p := by
  induction l₁ with
  | nil => simp
  | cons a l ih =>
    have ha : p a = true := h a (List.mem_cons_self a l)
    simp only [List.cons_append, List.dropWhile_cons, ha, if_true]
    exact ih (fun x hx => h x (List.mem_cons_of_mem a hx))

theorem takeWhile_cons_false {α : Type} (p : α → Bool) (a : α) (l : List α)
    (h : p a = false) : (a :: l).takeWhile p = [] := by
  simp [List.takeWhile_cons, h]

theorem dropWhile_cons_false {α : Type} (p : α → Bool) (a : α) (l : List α)
    (h : p a = false) : (a :: l).dropWhile p = a :: l := by
  simp [List.dropWhile_cons, h]

theorem takeWhile_all {α : Type} (p : α → Bool) (l : List α)
    (h : ∀ a ∈ l, p a = true) : l.takeWhile p = l := by
  have := takeWhile_append_all p l [] h
  simpa using this

theorem dropWhile_all {α : Type} (p : α → Bool) (l : List α)
    (h : ∀ a ∈ l, p a = true) : l.dropWhile p = [] := by
  have := dropWhile_append_all p l [] h
  simpa using this

/-- `dropWhile` is the identity when every element fails the predicate
(only the head actually matters). -/
theorem dropWhile_of_none {α : Type} (p : α → Bool) (l : List α)
    (h : ∀ a ∈ l, p a = false) : l.dropWhile p = l := by
  cases l with
  | nil => rfl
  | cons a l => simp [List.dropWhile_cons, h a (List.mem_cons_self a l)]

/-- Trimming is the identity on whitespace-free lists. -/
theorem trimWs_of_no_ws (l : List Char) (h : ∀ c ∈ l, isWs c = false) :
    trimWs l = l := by
  unfold trimWs
  rw [dropWhile_of_none isWs l h, dropWhile_of_none isWs l.reverse
    (fun c hc => h c (List.mem_reverse.mp hc)), List.reverse_reverse]

/-!
## Tree lemmas
-/

theorem lookup_set_self (ch : List (List Char × CategoryTree)) (s : List Char)
    (t : CategoryTree) : lookupChild (setChild ch s t) s = some t := by
  induction ch with
  | nil => simp [setChild, lookupChild]
  | cons e ch ih =>
    obtain ⟨k0, u0⟩ := e
    by_cases h : k0 = s
    · simp [setChild, lookupChild, h]
    · simp only [setChild, lookupChild, h, if_false]
      exact ih

theorem lookup_set_other (ch : List (List Char × CategoryTree)) (s k : List Char)
    (t : CategoryTree) (hne : k ≠ s) :
    lookupChild (setChild ch s t) k = lookupChild ch k := by
  have hsk : s ≠ k := Ne.symm hne
  induction ch with
  | nil => simp [setChild, lookupChild, hsk]
  | cons e ch ih =>
    obtain ⟨k0, u0⟩ := e
    by_cases h : k0 = s
    · subst h
      simp [setChild, lookupChild, hsk]
    · simp only [setChild, lookupChild, h, if_false]
      by_cases h2 : k0 = k <;> simp [h2, ih]

theorem catsAt_empty (p : List (List Char)) : catsAt emptyTree p = [] := by
  cases p <;> simp [catsAt, emptyTree, lookupChild]

theorem catsAt_insertPath (c : Category) (segs : List (List Char)) (t : CategoryTree)
    (p : List (List Char)) :
    catsAt (insertPath c segs t) p =
      catsAt t p ++ (if segs = p then [c] else []) := by
  induction segs generalizing t p with
  | nil =>
    obtain ⟨ch, cats⟩ := t
    cases p with
    | nil => simp [insertPath, catsAt]
    | cons q pr => simp [insertPath, catsAt]
  | cons s sr ih =>
    obtain ⟨ch, cats⟩ := t
    cases p with
    | nil => simp [insertPath, catsAt]
    | cons q pr =>
      by_cases hqs : s = q
      · subst hqs
        simp only [insertPath, catsAt, lookup_set_self]
        rw [ih]
        have hbase :
            catsAt ((lookupChild ch s).getD emptyTree) pr =
              catsAt (CategoryTree.node ch cats) (s :: pr) := by
          cases hl : lookupChild ch s with
          | none => simp [catsAt, hl, catsAt_empty]
          | some t' => simp [catsAt, hl]
        rw [hbase]
        by_cases hsp : sr = pr <;> simp [hsp, catsAt]
      · have hne : ¬ (s :: sr = q :: pr) := by simp [hqs]
        have hqs' : q ≠ s := fun h => hqs h.symm
        simp only [insertPath, catsAt, lookup_set_other ch s q _ hqs',
          if_neg hne, List.append_nil]

theorem catsAt_insertId (t : CategoryTree) (id : List Char) (c : Category)
    (p : List (List Char)) :
    catsAt (insertId t id c) p =
      catsAt t p ++ (if splitDash id = p then [c] else []) :=
  catsAt_insertPath c (splitDash id) t p

theorem hasNode_empty (p : List (List Char)) : hasNode emptyTree p = p.isEmpty := by
  cases p <;> simp [hasNode, emptyTree, lookupChild]

theorem hasNode_insertPath (c : Category) (segs : List (List Char)) (t : CategoryTree)
    (p : List (List Char)) :
    hasNode (insertPath c segs t) p = (hasNode t p || pathLeadsB p segs) := by
  induction segs generalizing t p with
  | nil =>
    obtain ⟨ch, cats⟩ := t
    cases p with
    | nil => simp [insertPath, hasNode, pathLeadsB]
    | cons q pr => simp [insertPath, hasNode, pathLeadsB]
  | cons s sr ih =>
    obtain ⟨ch, cats⟩ := t
    cases p with
    | nil => simp [insertPath, hasNode, pathLeadsB]
    | cons q pr =>
      by_cases hqs : s = q
      · subst hqs
        simp only [insertPath, hasNode, lookup_set_self, pathLeadsB,
          beq_self_eq_true, Bool.true_and]
        rw [ih]
        cases hl : lookupChild ch s with
        | none =>
          simp only [hl, Option.getD_none, hasNode_empty, hasNode, hl]
          cases pr <;> simp [pathLeadsB]
        | some t' => simp [hl, hasNode]
      · have hqs' : q ≠ s := fun h => hqs h.symm
        have hbe : (q == s) = false := by simp [hqs']
        simp only [insertPath, hasNode, lookup_set_other ch s q _ hqs',
          pathLeadsB, hbe, Bool.false_and, Bool.or_false]

theorem hasNode_insertId (t : CategoryTree) (id : List Char) (c : Category)
    (p : List (List Char)) :
    hasNode (insertId t id c) p = (hasNode t p || pathLeadsB p (splitDash id)) :=
  hasNode_insertPath c (splitDash id) t p

/-- The ordered projection of an insert sequence onto one id path: the
categories landing on that path, oldest first. -/
def projAt (p : List (List Char)) (l : List (List Char × Category)) : List Category :=
  (l.filter (fun x => decide (splitDash x.1 = p))).map Prod.snd

theorem catsAt_insertAll (l : List (List Char × Category)) (t : CategoryTree)
    (p : List (List Char)) :
    catsAt (insertAll t l) p = catsAt t p ++ projAt p l := by
  induction l generalizing t with
  | nil => simp [insertAll, projAt]
  | cons x l ih =>
    have hstep : insertAll t (x :: l) = insertAll (insertId t x.1 x.2) l := rfl
    rw [hstep, ih, catsAt_insertId]
    by_cases h : splitDash x.1 = p
    · simp [projAt, List.filter_cons, h]
    · simp [projAt, List.filter_cons, h]

theorem hasNode_insertAll (l : List (List Char × Category)) (t : CategoryTree)
    (p : List (List Char)) :
    hasNode (insertAll t l) p =
      (hasNode t p || l.any (fun x => pathLeadsB p (splitDash x.1))) := by
  induction l generalizing t with
  | nil => simp [insertAll]
  | cons x l ih =>
    have hstep : insertAll t (x :: l) = insertAll (insertId t x.1 x.2) l := rfl
    rw [hstep, ih, hasNode_insertId]
    simp [List.any_cons, Bool.or_assoc]

/-- `splitOnChar` never returns an empty list of parts. -/
theorem splitOnChar_ne_nil (sep : Char) (l : List Char) : splitOnChar sep l ≠ [] := by
  cases l with
  | nil => simp [splitOnChar]
  | cons c r =>
    by_cases h : c = sep
    · simp [splitOnChar, h]
    · simp only [splitOnChar, h, if_false]
      cases hs : splitOnChar sep r <;> simp

/-- Claim C2: `CategoryTree.insert` splits the id on `-` (a non-empty — in
fact any — id yields at least one segment), walks from the root creating a
child per segment on first encounter while preserving sibling creation
order, and appends the category at the final node, never failing; inserting
ids `1-01`, `1-02-01-00`, `1-03` into an empty tree yields a root whose
single child `1` has children `01`, `02` (leading to `01` then `00`) and
`03` in that sibling order, each category attached at its path's final
node.  (Totality of the Lean function witnesses that the walk never
fails.) -/
theorem c2_insert_behaviour_and_example :
    (∀ id : List Char, 1 ≤ (splitDash id).length) ∧
    (∀ (t : CategoryTree) (id : List Char) (c : Category),
      catsAt (insertId t id c) (splitDash id) = catsAt t (splitDash id) ++ [c]) ∧
    insertAll emptyTree
        [(("1-01").data, ⟨("1-01").data, none, none⟩),
         (("1-02-01-00").data, ⟨("1-02-01-00").data, none, none⟩),
         (("1-03").data, ⟨("1-03").data, none, none⟩)] =
      .node
        [(("1").data, .node
          [(("01").data, .node [] [⟨("1-01").data, none, none⟩]),
           (("02").data, .node
             [(("01").data, .node
               [(("00").data, .node [] [⟨("1-02-01-00").data, none, none⟩])] [])] []),
           (("03").data, .node [] [⟨("1-03").data, none, none⟩])] [])] [] := by
  refine ⟨?_, ?_, ?_⟩
  · intro id
    have h := splitOnChar_ne_nil '-' id
    cases hs : splitDash id with
    | nil => exact absurd hs h
    | cons a l => simp
  · intro t id c
    rw [catsAt_insertId]
    simp
  · rfl

/-- Claim C10: inserting with the empty-string id does not fail and does
not attach the category at the root: `""` splits into the single empty
segment, so the category lands on the root's child keyed by the empty
string (created if needed), and the root's own category list is
unchanged. -/
theorem c10_insert_empty_id :
    splitDash [] = [[]] ∧
    (∀ (t : CategoryTree) (c : Category),
      catsAt (insertId t [] c) [] = catsAt t [] ∧
      catsAt (insertId t [] c) [[]] = catsAt t [[]] ++ [c] ∧
      hasNode (insertId t [] c) [[]] = true) := by
  refine ⟨rfl, fun t c => ⟨?_, ?_, ?_⟩⟩
  · rw [catsAt_insertId]
    simp [splitDash, splitOnChar]
  · rw [catsAt_insertId]
    simp [splitDash, splitOnChar]
  · rw [hasNode_insertId]
    simp [splitDash, splitOnChar, pathLeadsB]

/-- Insert sequences used to settle claim C4. -/
def c4SeqA : List (List Char × Category) :=
  [(("1").data, ⟨("1").data, none, none⟩), (("2").data, ⟨("2").data, none, none⟩)]

/-- The same two inserts in the opposite order (each id path still receives
its categories in the same relative order, trivially, since the two calls
target different paths). -/
def c4SeqB : List (List Char × Category) :=
  [(("2").data, ⟨("2").data, none, none⟩), (("1").data, ⟨("1").data, none, none⟩)]

theorem c4Seq_proj (p : List (List Char)) : projAt p c4SeqA = projAt p c4SeqB := by
  by_cases h1 : splitDash ("1").data = p <;> by_cases h2 : splitDash ("2").data = p
  · exact absurd (h1.trans h2.symm) (by decide)
  · simp [projAt, c4SeqA, c4SeqB, List.filter_cons, h1, h2]
  · simp [projAt, c4SeqA, c4SeqB, List.filter_cons, h1, h2]
  · simp [projAt, c4SeqA, c4SeqB, List.filter_cons, h1, h2]

/-- Claim C4 is false as stated: two insert sequences that are permutations
of each other and preserve the per-path relative category order can produce
trees whose root children appear in different sibling orders, hence
non-identical trees.  Sequences `[("1",·),("2",·)]` and `[("2",·),("1",·)]`
witness this. -/
theorem c4_counterexample :
    ¬ (∀ l₁ l₂ : List (List Char × Category),
        l₁.Perm l₂ → (∀ p, projAt p l₁ = projAt p l₂) →
        insertAll emptyTree l₁ = insertAll emptyTree l₂) := by
  intro hclaim
  have hperm : c4SeqA.Perm c4SeqB := by
    unfold c4SeqA c4SeqB
    exact List.Perm.swap _ _ _
  have h := hclaim c4SeqA c4SeqB hperm c4Seq_proj
  have hk := congrArg rootKeys h
  rw [show rootKeys (insertAll emptyTree c4SeqA) = [("1").data, ("2").data] from rfl,
    show rootKeys (insertAll emptyTree c4SeqB) = [("2").data, ("1").data] from rfl] at hk
  exact absurd hk (by decide)

/-- Claim C4 amended: under the stated hypothesis the two trees agree on
every node's category list (same categories, same order) and on which
nodes exist — but sibling order may differ, since it is fixed by the order
of first encounters across the whole sequence. -/
theorem c4_amended (l₁ l₂ : List (List Char × Category))
    (hproj : ∀ p, projAt p l₁ = projAt p l₂) (p : List (List Char)) :
    catsAt (insertAll emptyTree l₁) p = catsAt (insertAll emptyTree l₂) p ∧
    hasNode (insertAll emptyTree l₁) p = hasNode (insertAll emptyTree l₂) p := by
  constructor
  · rw [catsAt_insertAll, catsAt_insertAll, hproj]
  · rw [hasNode_insertAll, hasNode_insertAll]
    have hany : (l₁.any (fun x => pathLeadsB p (splitDash x.1))) =
        (l₂.any (fun x => pathLeadsB p (splitDash x.1))) := by
      have key : ∀ (la lb : List (List Char × Category)),
          (∀ q, projAt q la = projAt q lb) →
          la.any (fun x => pathLeadsB p (splitDash x.1)) = true →
          lb.any (fun x => pathLeadsB p (splitDash x.1)) = true := by
        intro la lb hq hx
        rw [List.any_eq_true] at hx ⊢
        obtain ⟨x, hmem, hlead⟩ := hx
        have hne : projAt (splitDash x.1) lb ≠ [] := by
          rw [← hq]
          unfold projAt
          simp only [ne_eq, List.map_eq_nil_iff, List.filter_eq_nil_iff]
          push_neg
          exact ⟨x, hmem, by simp⟩
        unfold projAt at hne
        have : ∃ y ∈ lb, decide (splitDash y.1 = splitDash x.1) = true := by
          by_contra hno
          push_neg at hno
          apply hne
          rw [List.filter_eq_nil_iff.mpr, List.map_nil]
          intro y hy
          simpa using fun he => by simpa [he] using hno y hy
        obtain ⟨y, hymem, hyeq⟩ := this
        rw [decide_eq_true_eq] at hyeq
        exact ⟨y, hymem, by rw [hyeq]; exact hlead⟩
      have h1 := key l₁ l₂ hproj
      have h2 := key l₂ l₁ (fun q => (hproj q).symm)
      cases ha : l₁.any (fun x => pathLeadsB p (splitDash x.1)) <;>
        cases hb : l₂.any (fun x => pathLeadsB p (splitDash x.1))
      · rfl
      · exact absurd (h2 hb) (by simp [ha])
      · exact absurd (h1 ha) (by simp [hb])
      · rfl
    rw [hany]

/-- Witness for `c4_amended` at the concrete swapped sequences. -/
theorem c4_amended_witness :
    catsAt (insertAll emptyTree c4SeqA) [("1").data] =
      catsAt (insertAll emptyTree c4SeqB) [("1").data] ∧
    hasNode (insertAll emptyTree c4SeqA) [("1").data] =
      hasNode (insertAll emptyTree c4SeqB) [("1").data] :=
  c4_amended c4SeqA c4SeqB c4Seq_proj [("1").data]

/-!
## LineReconstructor lemmas
-/

/-- The context-free part of the terminal catalogue (claim C3's "terminal
token of the catalogue"): the thirteen role suffixes checked by the loop. -/
def endsCatalogue (line : List Char) : Bool :=
  endsWithS line ("责人").data ||
  endsWithS line ("员").data ||
  endsWithS line ("护士").data ||
  endsWithS line ("制片人").data ||
  endsWithS line ("师").data ||
  endsWithS line ("官").data ||
  endsWithS line ("律师").data ||
  endsWithS line ("医生").data ||
  endsWithS line ("顾问").data ||
  endsWithS line ("教师").data ||
  endsWithS line ("警察").data ||
  endsWithS line ("经理").data ||
  endsWithS line ("董事").data

/-- A catalogue suffix or a three-dash id line is terminal regardless of
the lookahead. -/
theorem isTerminal_of_ctx_free (line : List Char) (next : Option (List Char))
    (h : endsCatalogue line = true ∨ line.count '-' = 3) :
    isTerminal line next = true := by
  cases h with
  | inl h =>
    simp only [endsCatalogue, Bool.or_eq_true] at h
    simp only [isTerminal, Bool.or_eq_true]
    tauto
  | inr h =>
    simp only [isTerminal, Bool.or_eq_true]
    right
    simp [h]

/-- The loop over a list of lines that are all non-empty and terminal for
context-free reasons emits each (noise-stripped) line as its own entry. -/
theorem clCore_terminal_lines (ls : List (List Char))
    (h : ∀ l ∈ ls, removeNoise l ≠ [] ∧
      (endsCatalogue (removeNoise l) = true ∨ (removeNoise l).count '-' = 3)) :
    clCore [] ls = ls.map removeNoise := by
  induction ls with
  | nil => rfl
  | cons l rest ih =>
    obtain ⟨hne, hterm⟩ := h l (List.mem_cons_self l rest)
    have ht : isTerminal (removeNoise l) rest.head? = true :=
      isTerminal_of_ctx_free _ _ hterm
    have hbe : (removeNoise l).isEmpty = false := by
      cases hr : removeNoise l with
      | nil => exact absurd hr hne
      | cons a r => simp
    simp only [clCore, ht, if_true, List.nil_append, hbe]
    rw [ih (fun x hx => h x (List.mem_cons_of_mem l hx))]
    simp [List.map_cons]

/-- Splitting undoes joining for separator-free pieces. -/
theorem splitOnChar_no_sep (sep : Char) (l : List Char) (h : sep ∉ l) :
    splitOnChar sep l = [l] := by
  induction l with
  | nil => rfl
  | cons c r ih =>
    have hcs : ¬ c = sep := fun he => h (he ▸ List.mem_cons_self c r)
    simp only [splitOnChar, hcs, if_false]
    rw [ih (fun hm => h (List.mem_cons_of_mem c hm))]

theorem splitOnChar_append_sep (sep : Char) (l rest : List Char) (h : sep ∉ l) :
    splitOnChar sep (l ++ sep :: rest) = l :: splitOnChar sep rest := by
  induction l with
  | nil => simp [splitOnChar]
  | cons c r ih =>
    have hcs : ¬ c = sep := fun he => h (he ▸ List.mem_cons_self c r)
    simp only [List.cons_append, splitOnChar, hcs, if_false, List.append_eq]
    rw [ih (fun hm => h (List.mem_cons_of_mem c hm))]

theorem splitOnChar_join (rs : List (List Char)) (hns : rs ≠ [])
    (h : ∀ l ∈ rs, '\n' ∉ l) :
    splitOnChar '\n' (joinSepL ['\n'] rs) = rs := by
  induction rs with
  | nil => exact absurd rfl hns
  | cons l rest ih =>
    cases rest with
    | nil =>
      simp only [joinSepL]
      exact splitOnChar_no_sep _ _ (h l (List.mem_cons_self l []))
    | cons l2 rest2 =>
      have hstep : joinSepL ['\n'] (l :: l2 :: rest2) =
          l ++ '\n' :: joinSepL ['\n'] (l2 :: rest2) := by
        simp [joinSepL]
      rw [hstep, splitOnChar_append_sep _ _ _ (h l (List.mem_cons_self l _)),
        ih (by simp) (fun x hx => h x (List.mem_cons_of_mem l hx))]

theorem stripCR_of_no_cr (l : List Char) (h : '\r' ∉ l) : stripCR l = l := by
  unfold stripCR
  rw [if_neg]
  intro hg
  exact h (List.mem_of_mem_getLast? hg)

/-- Pointwise-identity maps are the identity. -/
theorem map_id_of_mem {α : Type} (f : α → α) (l : List α)
    (h : ∀ x ∈ l, f x = x) : l.map f = l := by
  induction l with
  | nil => rfl
  | cons a r ih =>
    rw [List.map_cons, h a (List.mem_cons_self a r),
      ih (fun x hx => h x (List.mem_cons_of_mem a hx))]

/-- `str::lines` is a left inverse of joining with `\n` on non-empty,
newline-free, CR-free lines. -/
theorem linesOf_join (rs : List (List Char))
    (h : ∀ l ∈ rs, l ≠ [] ∧ '\n' ∉ l ∧ '\r' ∉ l) :
    linesOf (joinSepL ['\n'] rs) = rs := by
  cases hns : rs with
  | nil => rfl
  | cons l0 rest0 =>
    rw [← hns]
    have hrs : rs ≠ [] := by rw [hns]; simp
    have hsplit := splitOnChar_join rs hrs (fun l hl => (h l hl).2.1)
    unfold linesOf
    rw [hsplit]
    cases hl : rs.getLast? with
    | none => exact absurd (List.getLast?_eq_none_iff.mp hl) hrs
    | some lst =>
      have hlne : lst ≠ [] := (h lst (List.mem_of_mem_getLast? hl)).1
      rw [if_neg (by rw [hl]; simp [hlne])]
      have hmap : rs.dropLast.map stripCR = rs.dropLast :=
        map_id_of_mem _ _
          (fun x hx => stripCR_of_no_cr x (h x ((List.dropLast_sublist rs).subset hx)).2.2)
      rw [hmap, hl, Option.toList_some]
      exact List.dropLast_append_getLast? lst hl

theorem mem_stripWs_not_ws {l : List Char} {c : Char} (h : c ∈ stripWs l) :
    isWs c = false := by
  unfold stripWs at h
  have := List.of_mem_filter h
  simpa using this

theorem stripWs_of_no_ws (l : List Char) (h : ∀ c ∈ l, isWs c = false) :
    stripWs l = l := by
  unfold stripWs
  exact List.filter_eq_self.mpr (fun c hc => by simp [h c hc])

theorem mem_removeNoise {l : List Char} {c : Char} (h : c ∈ removeNoise l) : c ∈ l :=
  List.mem_of_mem_filter h

theorem removeNoise_idem (l : List Char) : removeNoise (removeNoise l) = removeNoise l := by
  unfold removeNoise
  exact List.filter_eq_self.mpr (fun c hc => (List.mem_filter.mp hc).2)

/-- Claim C3: `construct_lines` is idempotent on input already segmented
into one logical entry per line, each line ending (after preprocessing) in
a terminal token of the catalogue or fully encoding a multi-segment id
(exactly three dashes): running it on the newline-joined sequence it
produced yields the same sequence again. -/
theorem c3_reconstructor_idempotent (t : List Char)
    (h : ∀ l ∈ linesOf t, removeNoise (stripWs l) ≠ [] ∧
      (endsCatalogue (removeNoise (stripWs l)) = true ∨
        (removeNoise (stripWs l)).count '-' = 3)) :
    constructLines (joinSepL ['\n'] (constructLines t)) = constructLines t := by
  have h1 : constructLines t = (linesOf t).map (fun l => removeNoise (stripWs l)) := by
    unfold constructLines
    rw [clCore_terminal_lines _ (fun x hx => by
      obtain ⟨l, hl, rfl⟩ := List.mem_map.mp hx
      exact h l hl)]
    rw [List.map_map]
    rfl
  have hprops : ∀ x ∈ constructLines t, x ≠ [] ∧ (∀ c ∈ x, isWs c = false) ∧
      removeNoise x = x ∧
      (endsCatalogue x = true ∨ x.count '-' = 3) := by
    intro x hx
    rw [h1] at hx
    obtain ⟨l, hl, rfl⟩ := List.mem_map.mp hx
    obtain ⟨hne, hterm⟩ := h l hl
    exact ⟨hne, fun c hc => mem_stripWs_not_ws (mem_removeNoise hc),
      removeNoise_idem _, hterm⟩
  have h2 : linesOf (joinSepL ['\n'] (constructLines t)) = constructLines t := by
    apply linesOf_join
    intro l hl
    obtain ⟨hne, hws, hrn, hterm⟩ := hprops l hl
    exact ⟨hne, fun hm => absurd (hws '\n' hm) (by decide),
      fun hm => absurd (hws '\r' hm) (by decide)⟩
  show clCore [] ((linesOf (joinSepL ['\n'] (constructLines t))).map stripWs) =
    constructLines t
  rw [h2]
  have h3 : (constructLines t).map stripWs = constructLines t :=
    map_id_of_mem _ _ (fun x hx => stripWs_of_no_ws x (hprops x hx).2.1)
  rw [h3]
  rw [clCore_terminal_lines _ (fun x hx => by
    obtain ⟨hne, hws, hrn, hterm⟩ := hprops x hx
    rw [hrn]
    exact ⟨hne, hterm⟩)]
  exact map_id_of_mem _ _ (fun x hx => (hprops x hx).2.2.1)

/-- Witness for `c3_reconstructor_idempotent` on a two-entry input. -/
theorem c3_reconstructor_idempotent_witness :
    constructLines (joinSepL ['\n']
        (constructLines (("中国共产党机关负责人\n国家权力机关负责人").data))) =
      constructLines (("中国共产党机关负责人\n国家权力机关负责人").data) :=
  c3_reconstructor_idempotent (("中国共产党机关负责人\n国家权力机关负责人").data)
    (by decide)

/-- A successful suffix match fixes the last character. -/
theorem head_of_endsWith {l suf : List Char} (h : endsWithS l suf = true)
    (hs : suf.reverse ≠ []) : l.reverse.head? = suf.reverse.head? := by
  unfold endsWithS at h
  cases hr : suf.reverse with
  | nil => exact absurd hr hs
  | cons d s' =>
    rw [hr] at h
    cases hx : l.reverse with
    | nil => rw [hx] at h; simp [startsWithSeg] at h
    | cons c r =>
      rw [hx] at h
      simp only [startsWithSeg, Bool.and_eq_true, beq_iff_eq] at h
      simp [h.1]

/-- A line whose last character is `工` cannot end with a suffix whose last
character differs. -/
theorem endsWith_false_of_gong {l : List Char}
    (h : l.reverse.head? = some '工') (suf : List Char) (hs : suf.reverse ≠ [])
    (hl : suf.reverse.head? ≠ some '工') : endsWithS l suf = false := by
  cases hb : endsWithS l suf
  · rfl
  · exact absurd ((head_of_endsWith hb hs).symm.trans h) hl

/-- Claim C5 amended: a preprocessed line ending in `工` and not containing
exactly three `-` occurrences terminates the current entry exactly when the
next raw line exists and lacks the substring `技术人员`; with exactly three
dashes the line terminates regardless of the lookahead (that disjunct of
the terminal condition fires first), which is the one correction the
counterexample forces. -/
theorem c5_amended (buffer l : List Char) (rest : List (List Char))
    (hG : endsWithS (removeNoise l) ("工").data = true)
    (hdash : (removeNoise l).count '-' ≠ 3) :
    (∀ nl, rest.head? = some nl → containsSub nl ("技术人员").data = false →
      clCore buffer (l :: rest) = (buffer ++ removeNoise l) :: clCore [] rest) ∧
    ((rest = [] ∨ ∃ nl, rest.head? = some nl ∧ containsSub nl ("技术人员").data = true) →
      clCore buffer (l :: rest) = clCore (buffer ++ removeNoise l) rest) := by
  have hhead : (removeNoise l).reverse.head? = some '工' := by
    have := head_of_endsWith hG (by decide)
    simpa using this
  have hne : removeNoise l ≠ [] := by
    intro hz
    rw [hz] at hhead
    simp at hhead
  have hsuf : ∀ suf : List Char, suf.reverse ≠ [] → suf.reverse.head? ≠ some '工' →
      endsWithS (removeNoise l) suf = false :=
    fun suf a b => endsWith_false_of_gong hhead suf a b
  have hterm : ∀ next : Option (List Char),
      isTerminal (removeNoise l) next =
        next.elim false (fun nl => !containsSub nl (("技术人员").data)) := by
    intro next
    have hemp : (removeNoise l).isEmpty = false := by
      cases hr : removeNoise l with
      | nil => exact absurd hr hne
      | cons a r => simp
    have hd : ((removeNoise l).count '-' == 3) = false := by
      simpa using hdash
    simp only [isTerminal, hemp,
      hsuf (("责人").data) (by decide) (by decide),
      hsuf (("员").data) (by decide) (by decide),
      hsuf (("护士").data) (by decide) (by decide),
      hsuf (("制片人").data) (by decide) (by decide),
      hsuf (("师").data) (by decide) (by decide),
      hsuf (("官").data) (by decide) (by decide),
      hsuf (("律师").data) (by decide) (by decide),
      hsuf (("医生").data) (by decide) (by decide),
      hsuf (("顾问").data) (by decide) (by decide),
      hsuf (("教师").data) (by decide) (by decide),
      hsuf (("警察").data) (by decide) (by decide),
      hsuf (("经理").data) (by decide) (by decide),
      hsuf (("董事").data) (by decide) (by decide),
      hG, hd, Bool.false_or, Bool.or_false, Bool.true_and]
  constructor
  · intro nl hnl hc
    have ht : isTerminal (removeNoise l) rest.head? = true := by
      rw [hterm, hnl, Option.elim_some, hc]
      rfl
    have hbe : (buffer ++ removeNoise l).isEmpty = false := by
      cases hr : removeNoise l with
      | nil => exact absurd hr hne
      | cons a r => simp
    simp only [clCore, ht, if_true, hbe, Bool.false_eq_true, if_false]
  · intro hcase
    have ht : isTerminal (removeNoise l) rest.head? = false := by
      rw [hterm]
      cases hcase with
      | inl hr => rw [hr]; rfl
      | inr hr =>
        obtain ⟨nl, hnl, hc⟩ := hr
        rw [hnl, Option.elim_some, hc]
        rfl
    simp only [clCore, ht, Bool.false_eq_true, if_false]

/-- Witness for `c5_amended`: `电工` followed by a line containing
`技术人员` is treated as a continuation. -/
theorem c5_amended_witness :
    clCore [] [("电工").data, ("技术人员").data] =
      clCore ([] ++ removeNoise (("电工").data)) [("技术人员").data] :=
  (c5_amended [] (("电工").data) [("技术人员").data] (by decide) (by decide)).2
    (Or.inr ⟨("技术人员").data, rfl, by decide⟩)

/-- Claim C5 is false as stated: the line `1-2-3-工` ends with `工` and the
following raw line contains `技术人员`, so the claim predicts a
continuation, but the three-dash disjunct of the terminal condition fires
and the loop emits the line as its own entry. -/
theorem c5_counterexample :
    endsWithS (removeNoise (("1-2-3-工").data)) (("工").data) = true ∧
    containsSub (("技术人员X").data) (("技术人员").data) = true ∧
    clCore [] [("1-2-3-工").data, ("技术人员X").data] ≠
      clCore ([] ++ removeNoise (("1-2-3-工").data)) [("技术人员X").data] := by
  refine ⟨by decide, by decide, by decide⟩

/-!
## CategoryParser lemmas
-/

theorem ne_dash_of_digit {c : Char} (h : isDigitChar c = true) : c ≠ '-' := by
  intro he
  rw [he] at h
  exact absurd h (by decide)

theorem ne_space_of_digit {c : Char} (h : isDigitChar c = true) : c ≠ ' ' := by
  intro he
  rw [he] at h
  exact absurd h (by decide)

/-- Absence from a list makes `contains` false. -/
theorem contains_eq_false_of_not_mem {l : List Char} {c : Char} (h : c ∉ l) :
    l.contains c = false := by
  rw [Bool.eq_false_iff]
  intro hc
  obtain ⟨a, ha, hb⟩ := List.contains_iff_exists_mem_beq.mp hc
  rw [beq_iff_eq] at hb
  exact h (hb ▸ ha)

/-- The id matcher consumes exactly a strict-shape tail and leaves a
remainder that starts with neither a digit nor a dash. -/
theorem parseIdTail_exact (cs : List Char) (rest : List Char)
    (h : strictIdTail cs = true)
    (hrest : rest.head?.elim True (fun c => isDigitChar c = false ∧ c ≠ '-')) :
    parseIdLoop (cs ++ rest) = (cs, rest) := by
  induction cs with
  | nil =>
    cases rest with
    | nil => rfl
    | cons c cs' =>
      obtain ⟨hdig, hdash⟩ := hrest
      simp [parseIdLoop, hdig, hdash]
  | cons c cs ih =>
    by_cases hc : c = '-'
    · subst hc
      rw [strictIdTail, if_pos rfl, Bool.and_eq_true] at h
      obtain ⟨hhead, htail⟩ := h
      cases cs with
      | nil => simp at hhead
      | cons d cs₂ =>
        rw [List.head?_cons, Option.elim_some] at hhead
        have hstep : parseIdLoop ('-' :: ((d :: cs₂) ++ rest)) =
            ('-' :: (parseIdLoop ((d :: cs₂) ++ rest)).1,
              (parseIdLoop ((d :: cs₂) ++ rest)).2) := by
          rw [parseIdLoop]
          rw [if_neg (by decide), if_pos rfl, if_pos (by simpa using hhead)]
        rw [List.cons_append, hstep, ih htail]
    · rw [strictIdTail, if_neg hc, Bool.and_eq_true] at h
      obtain ⟨hdig, htail⟩ := h
      rw [List.cons_append, parseIdLoop]
      rw [if_pos hdig]
      rw [ih htail]

theorem parseId_exact (idc : List Char) (rest : List Char)
    (hid : isStrictIdShape idc = true)
    (hrest : rest.head?.elim True (fun c => isDigitChar c = false ∧ c ≠ '-')) :
    parseIdLoop (idc ++ rest) = (idc, rest) := by
  cases idc with
  | nil => simp [isStrictIdShape] at hid
  | cons c cs =>
    rw [isStrictIdShape, Bool.and_eq_true] at hid
    obtain ⟨hdig, htail⟩ := hid
    rw [List.cons_append, parseIdLoop, if_pos hdig,
      parseIdTail_exact cs rest htail hrest]

/-- A digit head survives the id matcher. -/
theorem parseIdLoop_digit_head (d : Char) (cs : List Char) (h : isDigitChar d = true) :
    parseIdLoop (d :: cs) = (d :: (parseIdLoop cs).1, (parseIdLoop cs).2) := by
  rw [parseIdLoop, if_pos h]

/-- Whatever the id matcher extracts is a valid id tail. -/
theorem idTail_parseIdLoop (xs : List Char) : idTail (parseIdLoop xs).1 = true := by
  induction xs with
  | nil => rfl
  | cons c cs ih =>
    by_cases hdig : isDigitChar c = true
    · rw [parseIdLoop_digit_head c cs hdig]
      rw [idTail, if_neg (ne_dash_of_digit hdig), hdig, Bool.true_and]
      exact ih
    · rw [parseIdLoop, if_neg (by simpa using hdig)]
      by_cases hc : c = '-'
      · rw [if_pos hc]
        cases hh : cs.head?.elim false isDigitChar with
        | false =>
          rw [if_neg (by simp [hh])]
          show idTail ['-'] = true
          decide
        | true =>
          rw [if_pos (by simp [hh])]
          cases cs with
          | nil => simp at hh
          | cons d cs₂ =>
            rw [List.head?_cons, Option.elim_some] at hh
            show idTail ('-' :: (parseIdLoop (d :: cs₂)).1) = true
            rw [parseIdLoop_digit_head d cs₂ hh]
            rw [idTail, if_pos rfl]
            rw [List.head?_cons, Option.elim_some, hh, Bool.true_and]
            have := ih
            rw [parseIdLoop_digit_head d cs₂ hh] at this
            exact this
      · rw [if_neg hc]
        rfl

/-- With a digit at the head, the extracted id has the guaranteed shape. -/
theorem isIdShape_parseIdLoop (xs : List Char)
    (h : xs.head?.elim false isDigitChar = true) :
    isIdShape (parseIdLoop xs).1 = true := by
  cases xs with
  | nil => simp at h
  | cons c cs =>
    rw [List.head?_cons, Option.elim_some] at h
    rw [parseIdLoop_digit_head c cs h, isIdShape, h, Bool.true_and]
    exact idTail_parseIdLoop cs

/-- Every character the id matcher extracts is a digit or a dash. -/
theorem parseIdLoop_chars (xs : List Char) :
    ∀ c ∈ (parseIdLoop xs).1, isDigitChar c = true ∨ c = '-' := by
  induction xs with
  | nil => intro c hc; simp [parseIdLoop] at hc
  | cons a cs ih =>
    intro c hc
    by_cases hdig : isDigitChar a = true
    · rw [parseIdLoop_digit_head a cs hdig] at hc
      rcases List.mem_cons.mp hc with h | h
      · exact Or.inl (h ▸ hdig)
      · exact ih c h
    · rw [parseIdLoop, if_neg (by simpa using hdig)] at hc
      by_cases ha : a = '-'
      · rw [if_pos ha] at hc
        cases hh : cs.head?.elim false isDigitChar with
        | false =>
          rw [if_neg (by simp [hh])] at hc
          simp at hc
          exact Or.inr hc
        | true =>
          rw [if_pos (by simp [hh])] at hc
          rcases List.mem_cons.mp hc with h | h
          · exact Or.inr h
          · exact ih c h
      · rw [if_neg ha] at hc
        simp at hc

/-- Ids made of digits and dashes are untouched by trimming. -/
theorem trimWs_id (xs : List Char)
    (h : ∀ c ∈ xs, isDigitChar c = true ∨ c = '-') : trimWs xs = xs := by
  apply trimWs_of_no_ws
  intro c hc
  rcases h c hc with hd | hd
  · exact not_ws_of_digit hd
  · rw [hd]
    decide

/-- The optional code group fails on input that does not open with `(`. -/
theorem tryCode_none (xs : List Char)
    (h : xs.head?.elim True (fun c => isWs c = false ∧ c ≠ '(')) :
    tryCode xs = (none, xs) := by
  cases xs with
  | nil => rfl
  | cons c cs =>
    obtain ⟨hws, hpar⟩ := h
    unfold tryCode
    rw [dropWhile_cons_false isWs c cs hws]
    split
    · rename_i r1 heq
      injection heq with h1 h2
      exact absurd h1 hpar
    · rfl

/-- Evaluation of one regex match, given the value of every stage. -/
theorem parseCategoryChunk_eq (chunk X idc R : List Char) (codeOpt : Option (List Char))
    (R2 D : List Char)
    (h0 : chunk.dropWhile isWs = X)
    (h1 : X.head?.elim false isDigitChar = true)
    (h2 : parseIdLoop X = (idc, R))
    (h3 : tryCode R = (codeOpt, R2))
    (h4 : R2.dropWhile isWs = D)
    (h5 : D.contains '\n' = false) :
    parseCategoryChunk chunk =
      some ⟨trimWs idc, codeOpt.map (List.filter (· != ' ')),
        some (D.filter (· != ' '))⟩ := by
  simp only [parseCategoryChunk, h0, h2, h3, h4]
  rw [if_pos h1, if_neg (by rw [h5]; exact Bool.false_ne_true)]

/-- A list whose head is absent or not whitespace is untouched by `\\s*`. -/
theorem dropWhile_head_ok (l : List Char)
    (h : l.head?.elim True (fun c => isWs c = false)) :
    l.dropWhile isWs = l := by
  cases l with
  | nil => rfl
  | cons c cs => exact dropWhile_cons_false isWs c cs h

theorem not_digit_of_ws {c : Char} (h : isWs c = true) : isDigitChar c = false := by
  simp only [isWs, Bool.or_eq_true, Bool.and_eq_true, beq_iff_eq,
    decide_eq_true_eq] at h
  simp only [isDigitChar, Bool.and_eq_false_iff, decide_eq_false_iff_not, not_le]
  omega

theorem ne_dash_of_ws {c : Char} (h : isWs c = true) : c ≠ '-' := by
  intro he
  rw [he] at h
  exact absurd h (by decide)

/-- A run satisfying `p` followed by something that does not is taken
exactly. -/
theorem takeWhile_exact {α : Type} (p : α → Bool) (l rest : List α)
    (hl : ∀ a ∈ l, p a = true)
    (hrest : rest.head?.elim True (fun a => p a = false)) :
    (l ++ rest).takeWhile p = l := by
  rw [takeWhile_append_all p l rest hl]
  cases rest with
  | nil => simp
  | cons r rs => rw [takeWhile_cons_false p r rs hrest, List.append_nil]

theorem dropWhile_exact {α : Type} (p : α → Bool) (l rest : List α)
    (hl : ∀ a ∈ l, p a = true)
    (hrest : rest.head?.elim True (fun a => p a = false)) :
    (l ++ rest).dropWhile p = rest := by
  rw [dropWhile_append_all p l rest hl]
  cases rest with
  | nil => rfl
  | cons r rs => exact dropWhile_cons_false p r rs hrest

/-- Prepending whitespace preserves a "no digit, no dash at the head"
condition. -/
theorem head_ok_of_ws_append (mid rest : List Char)
    (hmid : ∀ c ∈ mid, isWs c = true)
    (hrest : rest.head?.elim True (fun c => isDigitChar c = false ∧ c ≠ '-')) :
    (mid ++ rest).head?.elim True (fun c => isDigitChar c = false ∧ c ≠ '-') := by
  cases mid with
  | nil => simpa using hrest
  | cons m ms =>
    have hm : isWs m = true := hmid m (List.mem_cons_self m ms)
    simp only [List.cons_append, List.head?_cons, Option.elim_some]
    exact ⟨not_digit_of_ws hm, ne_dash_of_ws hm⟩

/-- The optional code group fails when, after leading whitespace, the
input does not open with `(`. -/
theorem tryCode_none_of_ws (mid rest : List Char)
    (hmid : ∀ c ∈ mid, isWs c = true)
    (hrest : rest.head?.elim True (fun c => isWs c = false ∧ c ≠ '(')) :
    tryCode (mid ++ rest) = (none, mid ++ rest) := by
  unfold tryCode
  rw [dropWhile_exact isWs mid rest hmid (by
    cases rest with
    | nil => exact trivial
    | cons r rs => exact hrest.1)]
  cases rest with
  | nil => rfl
  | cons r rs =>
    split
    · rename_i r1 heq
      injection heq with h1 h2
      exact absurd h1 hrest.2
    · rfl

/-- Claim C1 amended: for every chunk matching the id pattern — leading
whitespace, a well-formed id, optional whitespace, then either a
description directly or a parenthesized `GBM` code (whitespace allowed
before the `(`, after it, between `GBM` and the digits, before and after
the `)`) followed by the description — the extracted id is the literal id
substring, verbatim: leading zeros and dash structure preserved, never
reinterpreted; and the stored code and description have all ASCII space
characters removed.  The amendment the counterexample forces: only ASCII
spaces are removed (`replace(' ', "")`), not all whitespace characters. -/
theorem c1_amended :
    (∀ w idc mid desc : List Char,
      (∀ c ∈ w, isWs c = true) →
      isStrictIdShape idc = true →
      (∀ c ∈ mid, isWs c = true) →
      desc.head?.elim True
        (fun c => isWs c = false ∧ isDigitChar c = false ∧ c ≠ '-' ∧ c ≠ '(') →
      '\n' ∉ desc →
      parseCategoryChunk (w ++ (idc ++ (mid ++ desc))) =
        some ⟨idc, none, some (desc.filter (· != ' '))⟩) ∧
    (∀ w idc mid1 w1 sp ds w2 w3 desc : List Char,
      (∀ c ∈ w, isWs c = true) →
      isStrictIdShape idc = true →
      (∀ c ∈ mid1, isWs c = true) →
      (∀ c ∈ w1, isWs c = true) →
      (∀ c ∈ sp, isWs c = true) →
      ds ≠ [] →
      (∀ c ∈ ds, isDigitChar c = true) →
      (∀ c ∈ w2, isWs c = true) →
      (∀ c ∈ w3, isWs c = true) →
      desc.head?.elim True (fun c => isWs c = false) →
      '\n' ∉ desc →
      parseCategoryChunk
          (w ++ (idc ++ (mid1 ++ ('(' ::
            (w1 ++ ('G' :: 'B' :: 'M' :: (sp ++ (ds ++ (w2 ++ (')' :: (w3 ++ desc))))))))))) =
        some ⟨idc, some (('G' :: 'B' :: 'M' :: (sp ++ ds)).filter (· != ' ')),
          some (desc.filter (· != ' '))⟩) := by
  constructor
  · intro w idc mid desc hw hid hmid hdesc hnl
    cases hcc : idc with
    | nil => rw [hcc] at hid; exact absurd hid (by decide)
    | cons c0 cs0 =>
      rw [← hcc]
      have hdig : isDigitChar c0 = true := by
        rw [hcc] at hid
        rw [isStrictIdShape, Bool.and_eq_true] at hid
        exact hid.1
      have hdesc2 : desc.head?.elim True (fun c => isDigitChar c = false ∧ c ≠ '-') := by
        cases desc with
        | nil => exact trivial
        | cons d ds' => exact ⟨hdesc.2.1, hdesc.2.2.1⟩
      have hdescws : desc.head?.elim True (fun c => isWs c = false) := by
        cases desc with
        | nil => exact trivial
        | cons d ds' => exact hdesc.1
      have h0 : (w ++ (idc ++ (mid ++ desc))).dropWhile isWs = idc ++ (mid ++ desc) := by
        rw [dropWhile_append_all isWs w _ hw, hcc, List.cons_append,
          dropWhile_cons_false isWs c0 _ (not_ws_of_digit hdig)]
      have h1 : (idc ++ (mid ++ desc)).head?.elim false isDigitChar = true := by
        rw [hcc, List.cons_append, List.head?_cons, Option.elim_some]
        exact hdig
      have h2 : parseIdLoop (idc ++ (mid ++ desc)) = (idc, mid ++ desc) :=
        parseId_exact idc _ hid (head_ok_of_ws_append mid desc hmid hdesc2)
      have h3 : tryCode (mid ++ desc) = (none, mid ++ desc) := by
        apply tryCode_none_of_ws mid desc hmid
        cases desc with
        | nil => exact trivial
        | cons d ds' => exact ⟨hdesc.1, hdesc.2.2.2⟩
      have h4 : (mid ++ desc).dropWhile isWs = desc :=
        dropWhile_exact isWs mid desc hmid hdescws
      have h5 : desc.contains '\n' = false := contains_eq_false_of_not_mem hnl
      rw [parseCategoryChunk_eq (w ++ (idc ++ (mid ++ desc))) (idc ++ (mid ++ desc))
        idc (mid ++ desc) none (mid ++ desc) desc h0 h1 h2 h3 h4 h5, Option.map_none']
      have htrim : trimWs idc = idc := by
        apply trimWs_id
        intro c hc
        apply parseIdLoop_chars (idc ++ (mid ++ desc))
        rw [h2]
        exact hc
      rw [htrim]
  · intro w idc mid1 w1 sp ds w2 w3 desc hw hid hmid1 hw1 hsp hds hdsd hw2 hw3 hdesc hnl
    obtain ⟨d0, ds0, hds0⟩ : ∃ d0 ds0, ds = d0 :: ds0 := by
      cases ds with
      | nil => exact absurd rfl hds
      | cons a b => exact ⟨a, b, rfl⟩
    have hd0 : isDigitChar d0 = true := hdsd d0 (by rw [hds0]; exact List.mem_cons_self _ _)
    cases hcc : idc with
    | nil => rw [hcc] at hid; exact absurd hid (by decide)
    | cons c0 cs0 =>
      rw [← hcc]
      have hdig : isDigitChar c0 = true := by
        rw [hcc] at hid
        rw [isStrictIdShape, Bool.and_eq_true] at hid
        exact hid.1
      have hdescws : desc.head?.elim True (fun c => isWs c = false) := hdesc
      have h0 : (w ++ (idc ++ (mid1 ++ ('(' ::
          (w1 ++ ('G' :: 'B' :: 'M' :: (sp ++ (ds ++ (w2 ++ (')' :: (w3 ++ desc))))))))))).dropWhile isWs =
          idc ++ (mid1 ++ ('(' ::
            (w1 ++ ('G' :: 'B' :: 'M' :: (sp ++ (ds ++ (w2 ++ (')' :: (w3 ++ desc))))))))) := by
        rw [dropWhile_append_all isWs w _ hw, hcc, List.cons_append,
          dropWhile_cons_false isWs c0 _ (not_ws_of_digit hdig)]
      have h1 : (idc ++ (mid1 ++ ('(' ::
          (w1 ++ ('G' :: 'B' :: 'M' :: (sp ++ (ds ++ (w2 ++ (')' :: (w3 ++ desc)))))))))).head?.elim
          false isDigitChar = true := by
        rw [hcc, List.cons_append, List.head?_cons, Option.elim_some]
        exact hdig
      have h2 : parseIdLoop (idc ++ (mid1 ++ ('(' ::
          (w1 ++ ('G' :: 'B' :: 'M' :: (sp ++ (ds ++ (w2 ++ (')' :: (w3 ++ desc)))))))))) =
          (idc, mid1 ++ ('(' ::
            (w1 ++ ('G' :: 'B' :: 'M' :: (sp ++ (ds ++ (w2 ++ (')' :: (w3 ++ desc))))))))) :=
        parseId_exact idc _ hid
          (head_ok_of_ws_append mid1 _ hmid1 (by
            simp only [List.head?_cons, Option.elim_some]
            exact ⟨by decide, by decide⟩))
      have hdshead : (ds ++ (w2 ++ (')' :: (w3 ++ desc)))).head?.elim True
          (fun c => isWs c = false) := by
        rw [hds0]
        simp only [List.cons_append, List.head?_cons, Option.elim_some]
        exact not_ws_of_digit hd0
      have hw2head : (w2 ++ (')' :: (w3 ++ desc))).head?.elim True
          (fun c => isDigitChar c = false) := by
        cases w2 with
        | nil => simp only [List.nil_append, List.head?_cons, Option.elim_some]; decide
        | cons m ms =>
          simp only [List.cons_append, List.head?_cons, Option.elim_some]
          exact not_digit_of_ws (hw2 m (List.mem_cons_self m ms))
      have hparenhead : (')' :: (w3 ++ desc)).head?.elim True (fun c => isWs c = false) := by
        simp only [List.head?_cons, Option.elim_some]
        decide
      have h3 : tryCode (mid1 ++ ('(' ::
          (w1 ++ ('G' :: 'B' :: 'M' :: (sp ++ (ds ++ (w2 ++ (')' :: (w3 ++ desc))))))))) =
          (some ('G' :: 'B' :: 'M' :: (sp ++ ds)), w3 ++ desc) := by
        have ha : (mid1 ++ ('(' ::
            (w1 ++ ('G' :: 'B' :: 'M' :: (sp ++ (ds ++ (w2 ++ (')' :: (w3 ++ desc))))))))).dropWhile
            isWs = '(' :: (w1 ++ ('G' :: 'B' :: 'M' :: (sp ++ (ds ++ (w2 ++ (')' :: (w3 ++ desc))))))) :=
          dropWhile_exact isWs mid1 _ hmid1 (by
            simp only [List.head?_cons, Option.elim_some]
            decide)
        have hb : (w1 ++ ('G' :: 'B' :: 'M' :: (sp ++ (ds ++ (w2 ++ (')' :: (w3 ++ desc))))))).dropWhile
            isWs = 'G' :: 'B' :: 'M' :: (sp ++ (ds ++ (w2 ++ (')' :: (w3 ++ desc))))) :=
          dropWhile_exact isWs w1 _ hw1 (by
            simp only [List.head?_cons, Option.elim_some]
            decide)
        have hwsp : (sp ++ (ds ++ (w2 ++ (')' :: (w3 ++ desc))))).takeWhile isWs = sp :=
          takeWhile_exact isWs sp _ hsp hdshead
        have hr4 : (sp ++ (ds ++ (w2 ++ (')' :: (w3 ++ desc))))).dropWhile isWs =
            ds ++ (w2 ++ (')' :: (w3 ++ desc))) :=
          dropWhile_exact isWs sp _ hsp hdshead
        have hdtake : (ds ++ (w2 ++ (')' :: (w3 ++ desc)))).takeWhile isDigitChar = ds :=
          takeWhile_exact isDigitChar ds _ hdsd hw2head
        have hddrop : (ds ++ (w2 ++ (')' :: (w3 ++ desc)))).dropWhile isDigitChar =
            w2 ++ (')' :: (w3 ++ desc)) :=
          dropWhile_exact isDigitChar ds _ hdsd hw2head
        have hcp : (w2 ++ (')' :: (w3 ++ desc))).dropWhile isWs = ')' :: (w3 ++ desc) :=
          dropWhile_exact isWs w2 _ hw2 hparenhead
        simp only [tryCode, ha, hb, hwsp, hr4, hdtake, hddrop, hcp]
        rw [if_neg (by simpa using hds)]
      have h4 : (w3 ++ desc).dropWhile isWs = desc :=
        dropWhile_exact isWs w3 desc hw3 hdescws
      have h5 : desc.contains '\n' = false := contains_eq_false_of_not_mem hnl
      rw [parseCategoryChunk_eq _ _ idc _ (some ('G' :: 'B' :: 'M' :: (sp ++ ds)))
        (w3 ++ desc) desc h0 h1 h2 h3 h4 h5, Option.map_some']
      have htrim : trimWs idc = idc := by
        apply trimWs_id
        intro c hc
        apply parseIdLoop_chars (idc ++ (mid1 ++ ('(' ::
          (w1 ++ ('G' :: 'B' :: 'M' :: (sp ++ (ds ++ (w2 ++ (')' :: (w3 ++ desc))))))))))
        rw [h2]
        exact hc
      rw [htrim]

/-- Witness for `c1_amended`: Example 3's entry exactly as the spec writes
it (space between id and description), and a code-bearing entry whose code
contains a space that is removed in the stored record. -/
theorem c1_amended_witness :
    parseCategoryChunk (("1-02-01-00 国家权力机关负责人").data) =
      some ⟨("1-02-01-00").data, none, some (("国家权力机关负责人").data)⟩ ∧
    parseCategoryChunk (("1-01 (GBM 10100) 中国共产党机关负责人").data) =
      some ⟨("1-01").data, some (("GBM10100").data),
        some (("中国共产党机关负责人").data)⟩ :=
  ⟨c1_amended.1 [] (("1-02-01-00").data) [' '] (("国家权力机关负责人").data)
      (by decide) (by decide) (by decide)
      ⟨by decide, by decide, by decide, by decide⟩ (by decide),
    c1_amended.2 [] (("1-01").data) [' '] [] [' '] (("10100").data) [] [' ']
      (("中国共产党机关负责人").data)
      (by decide) (by decide) (by decide) (by decide) (by decide) (by decide)
      (by decide) (by decide) (by decide)
      ((by decide : isWs '中' = false)) (by decide)⟩

/-- Claim C1 is false as stated: in `1-01 a\tb` the tab is a whitespace
character, yet the stored description keeps it — `replace(' ', "")` removes
ASCII spaces only, so not all whitespace is removed. -/
theorem c1_counterexample :
    parseCategoryChunk (("1-01 a\tb").data) ≠
      some ⟨("1-01").data, none, some (("ab").data)⟩ ∧
    parseCategoryChunk (("1-01 a\tb").data) =
      some ⟨("1-01").data, none, some (("a\tb").data)⟩ ∧
    '\t' ∈ ("a\tb").data ∧ isWs '\t' = true :=
  ⟨by decide, rfl, by decide, by decide⟩

/-- Claim C7 amended: every id `parse_categories` produces consists of
digit groups joined by single dashes with no leading dash and no other
characters, but may end in one trailing dash — the regex `(?:\d+-?)+`
takes a dash greedily even when no digit follows.  The amendment the
counterexample forces: "no trailing dash" is weakened to "at most one
trailing dash". -/
theorem c7_amended (chunk : List Char) (cat : Category)
    (h : parseCategoryChunk chunk = some cat) : isIdShape cat.id = true := by
  simp only [parseCategoryChunk] at h
  by_cases hg : (chunk.dropWhile isWs).head?.elim false isDigitChar = true
  · rw [if_pos hg] at h
    by_cases hn : ((tryCode (parseIdLoop (chunk.dropWhile isWs)).2).2.dropWhile
        isWs).contains '\n' = true
    · rw [if_pos hn] at h
      exact absurd h (by simp)
    · rw [if_neg hn] at h
      have hcat : cat = ⟨trimWs (parseIdLoop (chunk.dropWhile isWs)).1,
          (tryCode (parseIdLoop (chunk.dropWhile isWs)).2).1.map (List.filter (· != ' ')),
          some (((tryCode (parseIdLoop (chunk.dropWhile isWs)).2).2.dropWhile
            isWs).filter (· != ' '))⟩ := by
        injection h with h'
        exact h'.symm
      rw [hcat]
      show isIdShape (trimWs (parseIdLoop (chunk.dropWhile isWs)).1) = true
      rw [trimWs_id _ (parseIdLoop_chars (chunk.dropWhile isWs))]
      exact isIdShape_parseIdLoop _ hg
  · rw [if_neg hg] at h
    exact absurd h (by simp)

/-- Witness for `c7_amended`: the id extracted from chunk `1-2` has the
guaranteed shape. -/
theorem c7_amended_witness : isIdShape (("1-2").data) = true :=
  c7_amended (("1-2").data) ⟨("1-2").data, none, some []⟩ rfl

/-- Claim C7 is false as stated: chunk `1-abc` matches, and the produced
id is `1-` with a trailing dash, violating the claimed
digit-groups-joined-by-dashes grammar. -/
theorem c7_counterexample :
    parseCategoryChunk (("1-abc").data) =
      some ⟨("1-").data, none, some (("abc").data)⟩ ∧
    isStrictIdShape (("1-").data) = false :=
  ⟨rfl, by decide⟩

/-- Claim C8 amended: a parenthesized code is recognized only when its
letters are exactly `GBM`; for an entry of the shape
`id(GBM<spaces><digits>)desc` the code is captured with ASCII spaces
removed.  The amendment the counterexample forces: "regardless of which
letters" is restricted to the literal letters `GBM` from the regex. -/
theorem c8_amended (idc sp ds desc : List Char)
    (hid : isStrictIdShape idc = true)
    (hsp : ∀ c ∈ sp, c = ' ')
    (hds : ds ≠ []) (hdsd : ∀ c ∈ ds, isDigitChar c = true)
    (hdesc : desc.head?.elim True (fun c => isWs c = false))
    (hnl : '\n' ∉ desc) :
    parseCategoryChunk (idc ++ '(' :: 'G' :: 'B' :: 'M' :: (sp ++ ds ++ ')' :: desc)) =
      some ⟨idc, some ('G' :: 'B' :: 'M' :: ds), some (desc.filter (· != ' '))⟩ := by
  have hspws : ∀ c ∈ sp, isWs c = true := fun c hc => by rw [hsp c hc]; decide
  obtain ⟨d0, ds0, hds0⟩ : ∃ d0 ds0, ds = d0 :: ds0 := by
    cases ds with
    | nil => exact absurd rfl hds
    | cons a b => exact ⟨a, b, rfl⟩
  have hd0 : isDigitChar d0 = true := hdsd d0 (by rw [hds0]; exact List.mem_cons_self _ _)
  cases hcc : idc with
  | nil => rw [hcc] at hid; exact absurd hid (by decide)
  | cons c0 cs0 =>
    rw [← hcc]
    have hdig : isDigitChar c0 = true := by
      rw [hcc] at hid
      rw [isStrictIdShape, Bool.and_eq_true] at hid
      exact hid.1
    have h0 : (idc ++ '(' :: 'G' :: 'B' :: 'M' :: (sp ++ ds ++ ')' :: desc)).dropWhile isWs
        = idc ++ '(' :: 'G' :: 'B' :: 'M' :: (sp ++ ds ++ ')' :: desc) := by
      rw [hcc, List.cons_append]
      exact dropWhile_cons_false isWs c0 _ (not_ws_of_digit hdig)
    have h1 : (idc ++ '(' :: 'G' :: 'B' :: 'M' :: (sp ++ ds ++ ')' :: desc)).head?.elim
        false isDigitChar = true := by
      rw [hcc, List.cons_append, List.head?_cons, Option.elim_some]
      exact hdig
    have h2 : parseIdLoop (idc ++ '(' :: 'G' :: 'B' :: 'M' :: (sp ++ ds ++ ')' :: desc)) =
        (idc, '(' :: 'G' :: 'B' :: 'M' :: (sp ++ ds ++ ')' :: desc)) :=
      parseId_exact idc _ hid ⟨by decide, by decide⟩
    have h3 : tryCode ('(' :: 'G' :: 'B' :: 'M' :: (sp ++ ds ++ ')' :: desc)) =
        (some ('G' :: 'B' :: 'M' :: (sp ++ ds)), desc) := by
      have ha : List.dropWhile isWs ('(' :: 'G' :: 'B' :: 'M' :: (sp ++ ds ++ ')' :: desc)) =
          '(' :: 'G' :: 'B' :: 'M' :: (sp ++ ds ++ ')' :: desc) :=
        dropWhile_cons_false isWs '(' _ (by decide)
      have hb : List.dropWhile isWs ('G' :: 'B' :: 'M' :: (sp ++ ds ++ ')' :: desc)) =
          'G' :: 'B' :: 'M' :: (sp ++ ds ++ ')' :: desc) :=
        dropWhile_cons_false isWs 'G' _ (by decide)
      have hcp : List.dropWhile isWs (')' :: desc) = ')' :: desc :=
        dropWhile_cons_false isWs ')' _ (by decide)
      have hw : (sp ++ ds ++ ')' :: desc).takeWhile isWs = sp := by
        rw [List.append_assoc, takeWhile_append_all isWs sp _ hspws, hds0,
          List.cons_append, takeWhile_cons_false isWs d0 _ (not_ws_of_digit hd0),
          List.append_nil]
      have hr4 : (sp ++ ds ++ ')' :: desc).dropWhile isWs = ds ++ ')' :: desc := by
        rw [List.append_assoc, dropWhile_append_all isWs sp _ hspws, hds0,
          List.cons_append, dropWhile_cons_false isWs d0 _ (not_ws_of_digit hd0)]
      have hdtake : (ds ++ ')' :: desc).takeWhile isDigitChar = ds := by
        rw [takeWhile_append_all isDigitChar ds _ hdsd,
          takeWhile_cons_false isDigitChar ')' _ (by decide), List.append_nil]
      have hddrop : (ds ++ ')' :: desc).dropWhile isDigitChar = ')' :: desc := by
        rw [dropWhile_append_all isDigitChar ds _ hdsd,
          dropWhile_cons_false isDigitChar ')' _ (by decide)]
      simp only [tryCode, ha, hb, hw, hr4, hdtake, hddrop, hcp]
      rw [if_neg (by simpa using hds)]
    have h4 : desc.dropWhile isWs = desc := dropWhile_head_ok desc hdesc
    have h5 : desc.contains '\n' = false := contains_eq_false_of_not_mem hnl
    have hmain := parseCategoryChunk_eq _ _ idc _ (some ('G' :: 'B' :: 'M' :: (sp ++ ds)))
      desc desc h0 h1 h2 h3 h4 h5
    rw [hmain]
    have htrim : trimWs idc = idc := by
      apply trimWs_id
      intro c hc
      apply parseIdLoop_chars (idc ++ '(' :: 'G' :: 'B' :: 'M' :: (sp ++ ds ++ ')' :: desc))
      rw [h2]
      exact hc
    have hfil : ('G' :: 'B' :: 'M' :: (sp ++ ds)).filter (· != ' ') =
        'G' :: 'B' :: 'M' :: ds := by
      have hspf : sp.filter (· != ' ') = [] :=
        List.filter_eq_nil_iff.mpr (fun c hc => by rw [hsp c hc]; decide)
      have hdsf : ds.filter (· != ' ') = ds :=
        List.filter_eq_self.mpr (fun c hc => by
          simpa using ne_space_of_digit (hdsd c hc))
      simp only [List.filter_cons, List.filter_append, hspf, hdsf]
      rfl
    rw [htrim, Option.map_some', hfil]

/-- Witness for `c8_amended` at Example 2's entry. -/
theorem c8_amended_witness :
    parseCategoryChunk (("1-01(GBM10100)中国共产党机关负责人").data) =
      some ⟨("1-01").data, some (("GBM10100").data),
        some (("中国共产党机关负责人").data)⟩ :=
  c8_amended (("1-01").data) [] (("10100").data) (("中国共产党机关负责人").data)
    (by decide) (by decide) (by decide) (by decide)
    ((by decide : isWs '中' = false)) (by decide)

/-- Claim C8 is false as stated: the block `(ABC123)` has the
letters-then-digits shape, but the regex demands the literal letters
`GBM`, so no code is captured and the block is swallowed by the
description. -/
theorem c8_counterexample :
    parseCategoryChunk (("1-01(ABC123)x").data) ≠
      some ⟨("1-01").data, some (("ABC123").data), some (("x").data)⟩ ∧
    parseCategoryChunk (("1-01(ABC123)x").data) =
      some ⟨("1-01").data, none, some (("(ABC123)x").data)⟩ :=
  ⟨by decide, rfl⟩

/-!
## ColumnCombiner lemmas (claim C9)
-/

/-- The pairing fold, with its accumulator exposed. -/
theorem combinedPairs_foldl (l : List (List Char × List Char)) (acc : List (List Char)) :
    l.foldl
        (fun acc p =>
          let comb := trimWs (p.1 ++ ' ' :: p.2)
          if comb.isEmpty then acc else acc ++ [comb])
        acc =
      acc ++ (l.map (fun p => trimWs (p.1 ++ ' ' :: p.2))).filter
        (fun x => !x.isEmpty) := by
  induction l generalizing acc with
  | nil => simp
  | cons p l ih =>
    rw [List.foldl_cons, List.map_cons, List.filter_cons]
    cases he : (trimWs (p.1 ++ ' ' :: p.2)).isEmpty with
    | true => simp only [he, if_true, ih, Bool.not_true, Bool.false_eq_true, if_false]
    | false =>
      simp only [he, Bool.false_eq_true, if_false, ih, Bool.not_false, if_true]
      simp

/-- Zipping truncates both lists to the common length. -/
theorem zip_take_min {α β : Type} (A : List α) (B : List β) :
    A.zip B = (A.take B.length).zip (B.take A.length) := by
  induction A generalizing B with
  | nil => simp
  | cons a A ih =>
    cases B with
    | nil => simp
    | cons b B =>
      simp only [List.zip_cons_cons, List.length_cons, List.take_succ_cons]
      rw [← ih B]

/-- Claim C9: in `parse_two_columns` the two reconstructed sequences are
paired positionally up to the shorter length; each in-range index
contributes the trimmed concatenation `A[i] B[i]` unless it trims to
empty, and every excess entry of the longer sequence is dropped, so the
parsed categories and the tree depend only on the common prefix. -/
theorem c9_pairing :
    (∀ A B : List (List Char),
      combinedPairs A B =
        ((A.zip B).map (fun p => trimWs (p.1 ++ ' ' :: p.2))).filter
          (fun x => !x.isEmpty)) ∧
    (∀ A B : List (List Char), (A.zip B).length = min A.length B.length) ∧
    (∀ A B : List (List Char),
      combinedPairs A B = combinedPairs (A.take B.length) (B.take A.length)) ∧
    (∀ (t : CategoryTree) (a b : List Char),
      parseTwoColumns t a b =
        (parseCategories (constructLines (joinSepL ['\n', '\n', '\n']
          (combinedPairs (constructLines a) (constructLines b))))).foldl
            (fun t c => insertId t c.id c) t) := by
  refine ⟨?_, ?_, ?_, ?_⟩
  · intro A B
    unfold combinedPairs
    rw [combinedPairs_foldl]
    rfl
  · intro A B
    exact List.length_zip A B
  · intro A B
    unfold combinedPairs
    rw [← zip_take_min]
  · intro t a b
    rfl

/-!
## FirstCategoryNormalizer (claim C6)
-/

/-- Claim C6 amended: `normalize_first_category` is total; it returns
"not applicable" (`none`) exactly when the input has no ASCII digit, or
the trimmed text before the first digit is empty, or there is no `)`, or —
the condition the counterexample forces — the first `)` sits more than one
position before the first digit (the Rust byte-range
`text.get(first_digit..=first_paren)` is `None` then).  Otherwise the
result is the characters from the first digit through the first `)`
(empty when the digit directly follows the `)`), a space, the trimmed
name, and the trimmed text after the `)` joined with no separator. -/
theorem c6_amended (text : List Char) :
    (normalizeFirstCategory text = none ↔
      (findCharIdx isDigitChar text = none ∨
       (∃ k, findCharIdx isDigitChar text = some k ∧ trimWs (text.take k) = []) ∨
       findCharIdx (· == ')') text = none ∨
       (∃ k p, findCharIdx isDigitChar text = some k ∧
         findCharIdx (· == ')') text = some p ∧ p + 1 < k))) ∧
    (∀ k p, findCharIdx isDigitChar text = some k →
      findCharIdx (· == ')') text = some p →
      trimWs (text.take k) ≠ [] → k ≤ p + 1 →
      normalizeFirstCategory text =
        some (((text.drop k).take (p + 1 - k)) ++ ' ' ::
          (trimWs (text.take k) ++ trimWs (text.drop (p + 1))))) := by
  cases hk : findCharIdx isDigitChar text with
  | none =>
    constructor
    · simp [normalizeFirstCategory, hk]
    · intro k p hkk
      exact absurd hkk (by simp)
  | some k =>
    by_cases hname : trimWs (text.take k) = []
    · constructor
      · simp only [normalizeFirstCategory, hk]
        rw [if_pos (by simp [hname])]
        simp only [true_iff]
        exact Or.inr (Or.inl ⟨k, rfl, hname⟩)
      · intro k' p hkk
        injection hkk with hkk
        subst hkk
        intro _ hn _
        exact absurd hname hn
    · cases hp : findCharIdx (· == ')') text with
      | none =>
        constructor
        · simp only [normalizeFirstCategory, hk, hp]
          rw [if_neg (by simp [hname])]
          simp
        · intro k' p hkk hpp
          exact absurd hpp (by simp)
      | some p =>
        by_cases hkp : k > p + 1
        · constructor
          · simp only [normalizeFirstCategory, hk, hp]
            rw [if_neg (by simp [hname]), if_pos hkp]
            simp only [true_iff]
            exact Or.inr (Or.inr (Or.inr ⟨k, p, rfl, rfl, hkp⟩))
          · intro k' p' hkk hpp hn hle
            injection hkk with hkk
            subst hkk
            injection hpp with hpp
            subst hpp
            omega
        · constructor
          · simp only [normalizeFirstCategory, hk, hp]
            rw [if_neg (by simp [hname]), if_neg hkp]
            refine iff_of_false (by simp) ?_
            push_neg
            refine ⟨?_, ?_, ?_, ?_⟩
            · simp
            · intro k' hkk
              injection hkk with hkk
              subst hkk
              exact hname
            · simp
            · intro k' p' hkk hpp
              injection hkk with hkk
              subst hkk
              injection hpp with hpp
              subst hpp
              omega
          · intro k' p' hkk hpp hn hle
            injection hkk with hkk
            subst hkk
            injection hpp with hpp
            subst hpp
            simp only [normalizeFirstCategory, hk, hp]
            rw [if_neg (by simp [hname]), if_neg hkp]

/-- Witness for `c6_amended` at Example 5 (first digit at index 4, first
`)` at index 11). -/
theorem c6_amended_witness :
    normalizeFirstCategory
        (("第一大类1(GBM10)党的机关、国家机关、群众团体和社会组织、企事业单位负责人").data) =
      some (("1(GBM10) 第一大类党的机关、国家机关、群众团体和社会组织、企事业单位负责人").data) :=
  (c6_amended
    (("第一大类1(GBM10)党的机关、国家机关、群众团体和社会组织、企事业单位负责人").data)).2
    4 11 rfl rfl (by decide) (by decide)

/-- Claim C6 is false as stated: `a) 1` contains a digit, the trimmed text
before the first digit (`a)`) is non-empty, and a `)` is present, so the
claim says `Some`; the code returns `None`, because the first `)` lies two
positions before the first digit and the byte-range lookup fails. -/
theorem c6_counterexample :
    normalizeFirstCategory (("a) 1").data) = none ∧
    findCharIdx isDigitChar (("a) 1").data) = some 3 ∧
    trimWs ((("a) 1").data).take 3) = ("a)").data ∧
    findCharIdx (· == ')') (("a) 1").data) = some 1 :=
  ⟨rfl, rfl, by decide, rfl⟩

end Kimi
